import Mathlib

/-!
Verification of the gpdf match-and-assemble pipeline (`gpdf.py`).

Python strings are embedded as `List Char`; machine-level PDF operations of the
access library (PyMuPDF) appear as abstract parameters at the call boundary, and
the repository's own functions are translated definition by definition.
-/

set_option linter.unusedVariables false

namespace Gpdf

/-- Whitespace class used by Python's regex `\s` and `str.strip` on the ASCII
range: space, tab, newline, carriage return, vertical tab, form feed. -/
def pySpace (c : Char) : Bool :=
  c == ' ' || c == '\t' || c == '\n' || c == '\r' || c == '\x0b' || c == '\x0c'

/-- Model of `re.sub(r"\s+", " ", text)`: every maximal run of whitespace
characters is replaced by a single space (all characters of a run except the
last are dropped, the last one becomes `' '`). -/
def collapseWS : List Char → List Char
  | [] => []
  | [c] => if pySpace c then [' '] else [c]
  | c :: d :: cs =>
    if pySpace c && pySpace d then collapseWS (d :: cs)
    else (if pySpace c then ' ' else c) :: collapseWS (d :: cs)

/-- Model of Python `str.strip()`: drop whitespace from both ends. -/
def pyStrip (l : List Char) : List Char :=
  (l.dropWhile pySpace).rdropWhile pySpace

/-- `_normalize_context` (gpdf.py line 28): collapse whitespace runs to single
spaces and strip both ends. -/
def normalize_context (l : List Char) : List Char :=
  pyStrip (collapseWS l)

/-- The ANSI start marker `"\x1b[31m"` inserted around a match. -/
def ansiStart : List Char := ['\x1b', '[', '3', '1', 'm']

/-- The ANSI end marker `"\x1b[0m"`. -/
def ansiEnd : List Char := ['\x1b', '[', '0', 'm']

/-- The sentinel `"\x00GPDF_START\x00"` of `_normalize_with_ansi`. -/
def sentinelStart : List Char :=
  ['\x00', 'G', 'P', 'D', 'F', '_', 'S', 'T', 'A', 'R', 'T', '\x00']

/-- The sentinel `"\x00GPDF_END\x00"` of `_normalize_with_ansi`. -/
def sentinelEnd : List Char :=
  ['\x00', 'G', 'P', 'D', 'F', '_', 'E', 'N', 'D', '\x00']

/-- Model of Python `str.replace(pat, repl)`: replace every non-overlapping
occurrence of `pat`, scanning left to right. -/
def replaceAll (pat repl : List Char) : List Char → List Char
  | [] => []
  | c :: cs =>
    if h : pat ≠ [] ∧ pat.isPrefixOf (c :: cs) = true then
      repl ++ replaceAll pat repl ((c :: cs).drop pat.length)
    else
      c :: replaceAll pat repl cs
termination_by l => l.length
decreasing_by
  · simp only [List.length_drop, List.length_cons]
    have : 0 < pat.length := List.length_pos.mpr h.1
    omega
  · simp

/-- `_normalize_with_ansi` (gpdf.py lines 32-37): swap the two ANSI codes for
sentinels, normalize whitespace, then swap the sentinels back. -/
def normalize_with_ansi (l : List Char) : List Char :=
  let t1 := replaceAll ansiStart sentinelStart l
  let t2 := replaceAll ansiEnd sentinelEnd t1
  let t3 := normalize_context t2
  replaceAll sentinelEnd ansiEnd (replaceAll sentinelStart ansiStart t3)

/-- Characters allowed inside an ANSI escape body by the regex `[0-9;]`. -/
def ansiParamChar (c : Char) : Bool := c.isDigit || c == ';'

/-- Scanner for the regex fragment `[0-9;]*m`: returns the input remaining
after the closing `m`, or `none` if the fragment does not match here. -/
def ansiScan : List Char → Option (List Char)
  | [] => none
  | c :: cs => if c = 'm' then some cs else if ansiParamChar c then ansiScan cs else none

/-- Scanner for the regex fragment `\[[0-9;]*m` (the part after `\x1b`). -/
def ansiCodeTail : List Char → Option (List Char)
  | [] => none
  | c :: rest => if c = '[' then ansiScan rest else none

theorem ansiScan_length : ∀ {l r : List Char}, ansiScan l = some r → r.length ≤ l.length
  | [], _, h => by simp [ansiScan] at h
  | c :: cs, r, h => by
    by_cases hm : c = 'm'
    · simp [ansiScan, hm] at h
      simp [← h]
    · by_cases hp : ansiParamChar c
      · simp [ansiScan, hm, hp] at h
        have := ansiScan_length h
        simp
        omega
      · simp [ansiScan, hm, hp] at h

theorem ansiCodeTail_length {l r : List Char} (h : ansiCodeTail l = some r) :
    r.length < l.length := by
  match l with
  | [] => simp [ansiCodeTail] at h
  | c :: cs =>
    by_cases hc : c = '['
    · simp [ansiCodeTail, hc] at h
      have := ansiScan_length h
      simp
      omega
    · simp [ansiCodeTail, hc] at h

/-- `_strip_ansi` (gpdf.py lines 39-40): `re.sub(r"\x1b\[[0-9;]*m", "", text)`,
removing every ANSI color escape. -/
def strip_ansi : List Char → List Char
  | [] => []
  | c :: cs =>
    if hc : c = '\x1b' then
      match h : ansiCodeTail cs with
      | some rest => strip_ansi rest
      | none => c :: strip_ansi cs
    else c :: strip_ansi cs
termination_by l => l.length
decreasing_by
  · have := ansiCodeTail_length h
    simp
    omega
  · simp
  · simp

/-- `_extract_context` (gpdf.py lines 50-63): clip a window of `window`
characters around the match `[s, e)`, insert the ANSI markers around the
matched span, and normalize.  `s - window` over `Nat` is Python's
`max(0, start - window)`. -/
def extract_context (text : List Char) (s e window : Nat) : List Char :=
  let left := s - window
  let right := min text.length (e + window)
  let snippet := (text.drop left).take (right - left)
  let localStart := s - left
  let localEnd := e - left
  normalize_with_ansi
    (snippet.take localStart ++ ansiStart ++
      ((snippet.drop localStart).take (localEnd - localStart) ++ (ansiEnd ++
        snippet.drop localEnd)))

/-- Suffix of `l` after the first occurrence of `pat` (`[]` if none). -/
def afterFirst (pat : List Char) : List Char → List Char
  | [] => []
  | c :: cs =>
    if pat.isPrefixOf (c :: cs) then (c :: cs).drop pat.length
    else afterFirst pat cs

/-- Prefix of `l` before the first occurrence of `pat` (all of `l` if none). -/
def beforeFirst (pat : List Char) : List Char → List Char
  | [] => []
  | c :: cs =>
    if pat.isPrefixOf (c :: cs) then []
    else c :: beforeFirst pat cs

/-- The text standing between the rendered highlight markers: everything after
the first `"\x1b[31m"` and before the following `"\x1b[0m"`. -/
def betweenMarkers (l : List Char) : List Char :=
  beforeFirst ansiEnd (afterFirst ansiStart l)

/-- Model of `os.path.basename` for slash-separated paths. -/
def basename (p : List Char) : List Char :=
  (p.reverse.takeWhile (fun c => c != '/')).reverse

/-- `_safe_filename` (gpdf.py lines 428-429). -/
def safe_filename (p : List Char) : List Char := basename p

/-- Model of `os.path.join` for the forms used here (plain relative names). -/
def pjoin (dir name : List Char) : List Char := dir ++ '/' :: name

/-- Decimal rendering of a natural number, as Python `str(i)`. -/
def natChars (n : Nat) : List Char := (Nat.repr n).data

/-- Python format `f"{i:03d}"`: decimal form of `i` left-padded with zeros to
at least three digits. -/
def pad3 (n : Nat) : List Char :=
  let s := natChars n
  if s.length < 3 then List.replicate (3 - s.length) '0' ++ s else s

/-- The file name `f"gpdf-{date_stamp}-{i:03d}.{ext}"` probed by
`_next_available_output`. -/
def mk_output_name (date_stamp : List Char) (i : Nat) (ext : List Char) : List Char :=
  ('g' :: 'p' :: 'd' :: 'f' :: '-' :: date_stamp) ++ ('-' :: pad3 i) ++ ('.' :: ext)

/-- Loop of `_next_available_output`: probe indices `i, i+1, ...` for `fuel`
steps, returning the first probed path the directory does not contain.
`pathExists` abstracts `os.path.exists`. -/
def next_avail_go (pathExists : List Char → Bool) (base_dir date_stamp ext : List Char) :
    Nat → Nat → Option (List Char)
  | 0, _ => none
  | fuel + 1, i =>
    let path := pjoin base_dir (mk_output_name date_stamp i ext)
    if pathExists path then next_avail_go pathExists base_dir date_stamp ext fuel (i + 1)
    else some path

/-- `_next_available_output` (gpdf.py lines 441-448): `for i in range(1, 1000)`
probe `gpdf-<date>-<NNN>.<ext>`; `none` models the `RuntimeError` raised when
every name is taken.  The date stamp is the externally supplied
`datetime.now().strftime("%Y-%m-%d")`. -/
def next_available_output (pathExists : List Char → Bool)
    (base_dir date_stamp ext : List Char) : Option (List Char) :=
  next_avail_go pathExists base_dir date_stamp ext 999 1

/-- The input-path filtering of `main` (gpdf.py lines 637-645): drop every scan
candidate whose absolute path coincides with a resolved output path.
`abspath` abstracts `os.path.abspath`; `html_path` and `merge_path` are the
two resolved output paths (`none` models Python `None`, and the truthiness
test `if path` additionally drops an empty string). -/
def filter_output_paths (abspath : List Char → List Char)
    (paths : List (List Char)) (html_path merge_path : Option (List Char)) :
    List (List Char) :=
  let output_paths :=
    (([html_path, merge_path].filterMap id).filter (fun p => !p.isEmpty)).map abspath
  if output_paths = [] then paths
  else paths.filter (fun p => decide (abspath p ∉ output_paths))

/-- `_copy_pdfs` (gpdf.py lines 432-438), represented by the list of write
actions it performs: each action is a destination path paired with the bytes
written there (`readBytes` abstracts `open(src, "rb").read()`).  A source
whose absolute path equals its destination is passed over by `continue`. -/
def copy_pdfs (abspath : List Char → List Char) (readBytes : List Char → List Nat)
    (output_dir : List Char) : List (List Char) → List (List Char × List Nat)
  | [] => []
  | src :: rest =>
    let dst := pjoin output_dir (safe_filename src)
    if abspath src = abspath dst then copy_pdfs abspath readBytes output_dir rest
    else (dst, readBytes src) :: copy_pdfs abspath readBytes output_dir rest

/-- The `MatchRecord` dataclass (gpdf.py lines 18-25).  `percent` is embedded
as a rational; the code computes the same expression in floating point. -/
structure MatchRecord where
  source_path : List Char
  title : List Char
  page_number : Nat
  page_count : Nat
  percent : ℚ
  context : List Char
deriving DecidableEq

/-- The percent expression of gpdf.py line 125:
`((page_index + 1) / page_count) * 100.0 if page_count else 0.0`,
taken at `page_number = page_index + 1`. -/
def percent_of (page_number page_count : Nat) : ℚ :=
  if page_count ≠ 0 then ((page_number : ℚ) / (page_count : ℚ)) * 100 else 0

/-- Model of an opened PDF document as the access library exposes it to the
scanner: an optional metadata title (`doc.metadata.get("title")`, with a
raising `metadata` folded into `none`), and one entry per page where
`Except.error` models `load_page`/`get_text` raising and `Except.ok t` the
extracted text (`get_text` returning `None` is folded into `ok []`, exactly
what the code's `or ""` does). -/
instance exceptDecEq {ε α : Type} [DecidableEq ε] [DecidableEq α] :
    DecidableEq (Except ε α) := fun a b =>
  match a, b with
  | Except.error e, Except.error e' =>
    if h : e = e' then isTrue (by rw [h]) else isFalse (fun hc => h (Except.error.inj hc))
  | Except.error _, Except.ok _ => isFalse (fun hc => Except.noConfusion hc)
  | Except.ok _, Except.error _ => isFalse (fun hc => Except.noConfusion hc)
  | Except.ok v, Except.ok v' =>
    if h : v = v' then isTrue (by rw [h]) else isFalse (fun hc => h (Except.ok.inj hc))

structure PDoc where
  metaTitle : Option (List Char)
  pages : List (Except Unit (List Char))
deriving DecidableEq

/-- `_pdf_title` (gpdf.py lines 90-96): the stripped metadata title if
nonempty, else the fallback. -/
def pdf_title (doc : PDoc) (fallback : List Char) : List Char :=
  let title := pyStrip (doc.metaTitle.getD [])
  if title = [] then fallback else title

/-- The records appended for one page (gpdf.py lines 122-135): one per
element of `matcher text`, in order.  `matcher` abstracts
`pattern.finditer(text)`, the list of `(start, end)` spans of all
non-overlapping matches, left to right. -/
def page_records (path title : List Char) (page_count window : Nat)
    (matcher : List Char → List (Nat × Nat)) (page_index : Nat) (text : List Char) :
    List MatchRecord :=
  (matcher text).map fun m =>
    { source_path := path
      title := title
      page_number := page_index + 1
      page_count := page_count
      percent := percent_of (page_index + 1) page_count
      context := extract_context text m.1 m.2 window }

/-- The page loop of `_scan_pdf` (gpdf.py lines 116-137), starting at page
index `i`: a page whose extraction raises propagates the exception
(`Except.error`); a page with empty text is skipped; otherwise its records
are appended and, if it had a match, its index is appended to the
matched-page list. -/
def scan_pages (path title : List Char) (page_count window : Nat)
    (matcher : List Char → List (Nat × Nat)) :
    Nat → List (Except Unit (List Char)) → Except Unit (List MatchRecord × List Nat)
  | _, [] => Except.ok ([], [])
  | i, pg :: rest =>
    match pg with
    | Except.error _ => Except.error ()
    | Except.ok text =>
      let recs :=
        if text = [] then [] else page_records path title page_count window matcher i text
      let hit : Bool := if text = [] then false else decide (matcher text ≠ [])
      match scan_pages path title page_count window matcher (i + 1) rest with
      | Except.error _ => Except.error ()
      | Except.ok (ms, ps) => Except.ok (recs ++ ms, (if hit then [i] else []) ++ ps)

/-- Observable outcome of `_scan_pdf`: `result = none` models an uncaught
exception propagating out of the function; `opened`/`closed` track the
document handle; `warned` records the non-fatal open-failure diagnostic
printed to stderr. -/
structure ScanOutcome where
  result : Option (List MatchRecord × List Nat)
  opened : Bool
  closed : Bool
  warned : Bool
deriving DecidableEq

/-- `_scan_pdf` (gpdf.py lines 99-140).  `openResult` is the outcome of
`fitz.open(path)`: `none` models the open raising, in which case the code
prints a diagnostic and returns empty results.  On success it scans all
pages; `doc.close()` on line 139 runs only when the loop finishes normally —
there is no try/finally — so a page error leaves the handle open. -/
def scan_pdf (openResult : Option PDoc) (matcher : List Char → List (Nat × Nat))
    (window : Nat) (path : List Char) : ScanOutcome :=
  match openResult with
  | none => { result := some ([], []), opened := false, closed := false, warned := true }
  | some doc =>
    match scan_pages path (pdf_title doc (basename path)) doc.pages.length window
        matcher 0 doc.pages with
    | Except.error _ => { result := none, opened := true, closed := false, warned := false }
    | Except.ok r => { result := some r, opened := true, closed := true, warned := false }

/-- Concrete one-page document used as witness input. -/
def egDoc : PDoc := ⟨none, [Except.ok ['a']]⟩

/-- Concrete matcher (one span per page) used as witness input. -/
def egMatcher : List Char → List (Nat × Nat) := fun _ => [(0, 1)]

/-- The single record the witness scan produces. -/
def egRec : MatchRecord :=
  { source_path := []
    title := []
    page_number := 1
    page_count := 1
    percent := percent_of 1 1
    context := extract_context ['a'] 0 1 0 }

/-- A page of the composite document: either a single page copied from a
source (identified by source path and 0-based source page index, the
`insert_pdf(src_doc, from_page=i, to_page=i)` of gpdf.py line 484) or the
generated contents page inserted by `new_page(pno=0)`. -/
inductive MPage where
  | copied (src : List Char) (pageIndex : Nat)
  | contents
deriving DecidableEq

/-- One element of the assembler's `entries` list (gpdf.py lines 488-495). -/
structure MergeEntry where
  title : List Char
  source_path : List Char
  source_page : Nat
  merged_page_index : Nat
deriving DecidableEq

/-- The assembler's accumulating state: the pages of the still-building
composite, the outline rows `[1, display, merged_page_number]`, the entries
list, and the page map. -/
structure MergeState where
  pages : List MPage
  toc : List (Nat × List Char × Nat)
  entries : List MergeEntry
  page_map : List ((List Char × Nat) × Nat)
deriving DecidableEq

/-- The string `" - page "` of the toc display labels. -/
def pageLabelSep : List Char := [' ', '-', ' ', 'p', 'a', 'g', 'e', ' ']

/-- Body of the per-page loop of `_build_merged_pdf` (gpdf.py lines 482-507):
copy one source page to the end of the composite, append the outline row, the
entry, and the page-map entry `((src, page_index + 1), merged_page_number)`
where `merged_page_number = merged.page_count + 1` is taken before the copy.
The provenance stamp and link (`insert_text`/`insert_link`) change only the
page's appearance, not the page list or the returned map, and are not
modelled. -/
def merge_page (st : MergeState) (src title : List Char) (page_index : Nat) :
    MergeState :=
  let merged_page_number := st.pages.length + 1
  { pages := st.pages ++ [MPage.copied src page_index]
    toc := st.toc ++ [(1, title ++ pageLabelSep ++ natChars (page_index + 1),
      merged_page_number)]
    entries := st.entries ++
      [⟨title, src, page_index + 1, merged_page_number - 1⟩]
    page_map := st.page_map ++ [((src, page_index + 1), merged_page_number)] }

/-- The per-file loop of `_build_merged_pdf` (gpdf.py lines 472-509): files
with no matched pages are skipped, a file whose open raises is skipped with a
diagnostic, and otherwise all its matched page indexes are copied in list
order. -/
def merge_files (openDoc : List Char → Option PDoc) :
    MergeState → List (List Char × List Nat) → MergeState
  | st, [] => st
  | st, (src, page_indexes) :: rest =>
    if page_indexes = [] then merge_files openDoc st rest
    else
      match openDoc src with
      | none => merge_files openDoc st rest
      | some doc =>
        merge_files openDoc
          (page_indexes.foldl
            (fun s i => merge_page s src (pdf_title doc (basename src)) i) st)
          rest

/-- Observable outcome of `_build_merged_pdf`: the returned page map, the
pages of the saved composite (`none` when nothing was saved), and the outline
finally set. -/
structure MergeResult where
  page_map : List ((List Char × Nat) × Nat)
  saved : Option (List MPage)
  toc : List (Nat × List Char × Nat)
deriving DecidableEq

/-- `_build_merged_pdf` (gpdf.py lines 462-555): run the copy loops, then, if
at least one page is present, prepend the generated contents page (when there
are entries), shift the outline targets by one, set the outline and save; the
page map is returned unshifted in every case. -/
def build_merged_pdf (openDoc : List Char → Option PDoc)
    (matched_pages_by_file : List (List Char × List Nat)) : MergeResult :=
  let st := merge_files openDoc ⟨[], [], [], []⟩ matched_pages_by_file
  if st.pages.length ≠ 0 then
    let final_pages := if st.entries ≠ [] then MPage.contents :: st.pages else st.pages
    let final_toc :=
      if st.entries ≠ [] then st.toc.map (fun row => (row.1, row.2.1, row.2.2 + 1))
      else st.toc
    ⟨st.page_map, some final_pages, final_toc⟩
  else ⟨st.page_map, none, st.toc⟩

/-- Concrete open oracle used by the merge witnesses: every path opens as a
one-page document. -/
def egOpen : List Char → Option PDoc := fun _ => some ⟨none, [Except.ok []]⟩

/-- The files the assembler actually copies from: a nonempty matched-page
list and a successful open. -/
def mergedFiles (openDoc : List Char → Option PDoc)
    (files : List (List Char × List Nat)) : List (List Char × List Nat) :=
  files.filter (fun f => decide (f.2 ≠ []) && (openDoc f.1).isSome)

/-- Concrete date stamp `"2024-01-01"` used as witness input. -/
def date24 : List Char := ['2', '0', '2', '4', '-', '0', '1', '-', '0', '1']

/-- Concrete extension `"html"` used as witness input. -/
def htmlExt : List Char := ['h', 't', 'm', 'l']

/-- A directory containing exactly `gpdf-2024-01-01-001.html` through
`gpdf-2024-01-01-005.html`, as an `os.path.exists` oracle over `"." `-joined
paths. -/
def dirWith5 : List Char → Bool := fun p =>
  decide (p ∈ (List.range' 1 5).map (fun i => pjoin ['.'] (mk_output_name date24 i htmlExt)))

end Gpdf

namespace Gpdf

theorem next_avail_go_some (pathExists : List Char → Bool) (base ds ext : List Char) :
    ∀ (fuel i : Nat) (name : List Char),
      next_avail_go pathExists base ds ext fuel i = some name →
      ∃ k, i ≤ k ∧ k < i + fuel ∧
        pathExists (pjoin base (mk_output_name ds k ext)) = false ∧
        (∀ j, i ≤ j → j < k → pathExists (pjoin base (mk_output_name ds j ext)) = true) ∧
        name = pjoin base (mk_output_name ds k ext)
  | 0, i, name, h => by simp [next_avail_go] at h
  | fuel + 1, i, name, h => by
    by_cases hp : pathExists (pjoin base (mk_output_name ds i ext)) = true
    · rw [next_avail_go, if_pos hp] at h
      obtain ⟨k, hik, hkf, hfree, hall, hname⟩ :=
        next_avail_go_some pathExists base ds ext fuel (i + 1) name h
      refine ⟨k, by omega, by omega, hfree, fun j hij hjk => ?_, hname⟩
      by_cases hji : j = i
      · rw [hji]; exact hp
      · exact hall j (by omega) hjk
    · rw [next_avail_go, if_neg hp] at h
      exact ⟨i, le_refl i, by omega, by simpa using hp, fun j hij hjk => by omega,
        (Option.some.inj h).symm⟩

theorem next_avail_go_none (pathExists : List Char → Bool) (base ds ext : List Char) :
    ∀ (fuel i : Nat),
      (∀ j, i ≤ j → j < i + fuel → pathExists (pjoin base (mk_output_name ds j ext)) = true) →
      next_avail_go pathExists base ds ext fuel i = none
  | 0, i, _ => rfl
  | fuel + 1, i, h => by
    have hi : pathExists (pjoin base (mk_output_name ds i ext)) = true :=
      h i (le_refl i) (by omega)
    rw [next_avail_go, if_pos hi]
    exact next_avail_go_none pathExists base ds ext fuel (i + 1)
      (fun j h1 h2 => h j (by omega) (by omega))

/-- C8: automatic output naming returns the path of `gpdf-<date>-<NNN>.<ext>`
for the smallest `NNN ∈ 001..999` whose name does not already exist in the
target directory, and fails (raises, modelled as `none`) when every such name
is taken. -/
theorem next_available_output_spec (pathExists : List Char → Bool)
    (base_dir date_stamp ext : List Char) :
    (∀ name, next_available_output pathExists base_dir date_stamp ext = some name →
      ∃ i, 1 ≤ i ∧ i ≤ 999 ∧
        pathExists (pjoin base_dir (mk_output_name date_stamp i ext)) = false ∧
        (∀ j, 1 ≤ j → j < i →
          pathExists (pjoin base_dir (mk_output_name date_stamp j ext)) = true) ∧
        name = pjoin base_dir (mk_output_name date_stamp i ext)) ∧
    ((∀ i, 1 ≤ i → i ≤ 999 →
        pathExists (pjoin base_dir (mk_output_name date_stamp i ext)) = true) →
      next_available_output pathExists base_dir date_stamp ext = none) := by
  constructor
  · intro name h
    obtain ⟨k, h1, h2, h3, h4, h5⟩ :=
      next_avail_go_some pathExists base_dir date_stamp ext 999 1 name h
    exact ⟨k, h1, by omega, h3, h4, h5⟩
  · intro h
    exact next_avail_go_none pathExists base_dir date_stamp ext 999 1
      (fun j h1 h2 => h j h1 (by omega))

/-- Witness for C8 at the spec's own example: a directory already holding
`gpdf-2024-01-01-001.html` … `-005.html` yields `gpdf-2024-01-01-006.html`. -/
theorem next_available_output_spec_witness :
    ∃ i, 1 ≤ i ∧ i ≤ 999 ∧
      dirWith5 (pjoin ['.'] (mk_output_name date24 i htmlExt)) = false ∧
      (∀ j, 1 ≤ j → j < i →
        dirWith5 (pjoin ['.'] (mk_output_name date24 j htmlExt)) = true) ∧
      pjoin ['.'] (mk_output_name date24 6 htmlExt) =
        pjoin ['.'] (mk_output_name date24 i htmlExt) :=
  (next_available_output_spec dirWith5 ['.'] date24 htmlExt).1
    (pjoin ['.'] (mk_output_name date24 6 htmlExt)) (by decide)

/-- C9: after the output-path filtering of `main`, no remaining scan candidate
has the absolute path of a (truthy) resolved HTML or merged-PDF output path —
and only such candidates are dropped. -/
theorem filter_output_paths_spec (abspath : List Char → List Char)
    (paths : List (List Char)) (html_path merge_path : Option (List Char)) :
    (∀ p ∈ filter_output_paths abspath paths html_path merge_path,
      ∀ o : List Char, o ∈ [html_path, merge_path].filterMap id → o ≠ [] →
        abspath p ≠ abspath o) ∧
    (∀ p ∈ paths,
      (∀ o : List Char, o ∈ [html_path, merge_path].filterMap id → o ≠ [] →
        abspath p ≠ abspath o) →
      p ∈ filter_output_paths abspath paths html_path merge_path) := by
  unfold filter_output_paths
  by_cases hempty :
      ((([html_path, merge_path].filterMap id).filter (fun p => !p.isEmpty)).map abspath) = []
  · rw [if_pos hempty]
    constructor
    · intro p hp o ho hone heq
      have hmem : o ∈ ([html_path, merge_path].filterMap id).filter (fun p => !p.isEmpty) :=
        List.mem_filter.mpr ⟨ho, by simp [hone]⟩
      have : abspath o ∈
          ((([html_path, merge_path].filterMap id).filter (fun p => !p.isEmpty)).map abspath) :=
        List.mem_map_of_mem abspath hmem
      rw [hempty] at this
      exact absurd this (List.not_mem_nil _)
    · intro p hp _
      exact hp
  · rw [if_neg hempty]
    constructor
    · intro p hp o ho hone heq
      rw [List.mem_filter, decide_eq_true_eq] at hp
      have hmem : o ∈ ([html_path, merge_path].filterMap id).filter (fun p => !p.isEmpty) :=
        List.mem_filter.mpr ⟨ho, by simp [hone]⟩
      have : abspath o ∈
          ((([html_path, merge_path].filterMap id).filter (fun p => !p.isEmpty)).map abspath) :=
        List.mem_map_of_mem abspath hmem
      rw [← heq] at this
      exact hp.2 this
    · intro p hp hno
      rw [List.mem_filter, decide_eq_true_eq]
      refine ⟨hp, fun hmem => ?_⟩
      obtain ⟨o, ho, heq⟩ := List.mem_map.mp hmem
      rw [List.mem_filter] at ho
      have hone : o ≠ [] := by
        have := ho.2; simpa using this
      exact hno o ho.1 hone heq.symm

/-- Closed witness for C9: with inputs `["x", "o"]` and resolved output `"o"`
(under `abspath = id`), the file `"o"` is dropped and `"x"` is kept. -/
theorem filter_output_paths_spec_witness :
    ['x'] ∈ filter_output_paths (fun p => p) [['x'], ['o']] (some ['o']) none :=
  (filter_output_paths_spec (fun p => p) [['x'], ['o']] (some ['o']) none).2
    ['x'] (by decide) (by decide)

/-- C10 (amended): the write actions of `_copy_pdfs` are exactly one
byte-for-byte copy to `output_dir/basename(src)` for each source whose
absolute path differs from that destination; a source equal to its destination
contributes no action.  (The claim's stronger reading — that such a file is
never opened for writing at all — fails: a later source with the same base
name still writes to that destination, see the counterexample.) -/
theorem copy_pdfs_actions (abspath : List Char → List Char)
    (readBytes : List Char → List Nat) (output_dir : List Char) :
    ∀ sources : List (List Char),
      copy_pdfs abspath readBytes output_dir sources =
        (sources.filter (fun src =>
            decide (abspath src ≠ abspath (pjoin output_dir (safe_filename src))))).map
          (fun src => (pjoin output_dir (safe_filename src), readBytes src))
  | [] => rfl
  | src :: rest => by
    by_cases h : abspath src = abspath (pjoin output_dir (safe_filename src))
    · simp only [copy_pdfs, if_pos h, List.filter_cons, h, decide_not]
      simp only [decide_eq_true_eq] at *
      simp [h, copy_pdfs_actions abspath readBytes output_dir rest]
    · simp only [copy_pdfs, if_neg h, List.filter_cons]
      simp [h, copy_pdfs_actions abspath readBytes output_dir rest]

theorem scan_pages_map_ok (path title : List Char) (pc w : Nat)
    (matcher : List Char → List (Nat × Nat)) :
    ∀ (texts : List (List Char)) (i : Nat),
      scan_pages path title pc w matcher i (texts.map Except.ok) =
        Except.ok
          ((List.enumFrom i texts).flatMap (fun it =>
              if it.2 = [] then [] else page_records path title pc w matcher it.1 it.2),
           (List.enumFrom i texts).filterMap (fun it =>
              if it.2 ≠ [] ∧ matcher it.2 ≠ [] then some it.1 else none))
  | [], _ => rfl
  | t :: ts, i => by
    rw [List.map_cons]
    simp only [scan_pages, scan_pages_map_ok path title pc w matcher ts (i + 1),
      List.enumFrom_cons, List.flatMap_cons, List.filterMap_cons]
    by_cases ht : t = []
    · simp [ht]
    · by_cases hm : matcher t = []
      · simp [ht, hm]
      · simp [ht, hm]

theorem scan_pages_error (path title : List Char) (pc w : Nat)
    (matcher : List Char → List (Nat × Nat)) :
    ∀ (pgs : List (Except Unit (List Char))) (i : Nat),
      (∃ pg ∈ pgs, pg = Except.error ()) →
      scan_pages path title pc w matcher i pgs = Except.error ()
  | [], _, h => by simp at h
  | pg :: rest, i, h => by
    cases pg with
    | error e => cases e; rfl
    | ok text =>
      have hrest : ∃ p ∈ rest, p = Except.error () := by
        obtain ⟨p, hp, hpe⟩ := h
        cases List.mem_cons.mp hp with
        | inl h1 => rw [h1] at hpe; exact absurd hpe (by simp)
        | inr h2 => exact ⟨p, h2, hpe⟩
      simp only [scan_pages,
        scan_pages_error path title pc w matcher rest (i + 1) hrest]

theorem exists_map_ok {pgs : List (Except Unit (List Char))}
    (h : ∀ pg ∈ pgs, pg.isOk = true) :
    ∃ texts : List (List Char), pgs = texts.map Except.ok := by
  induction pgs with
  | nil => exact ⟨[], rfl⟩
  | cons pg rest ih =>
    obtain ⟨texts, htexts⟩ := ih (fun p hp => h p (List.mem_cons_of_mem _ hp))
    cases pg with
    | error e =>
      have := h _ (List.mem_cons_self _ _)
      simp [Except.isOk, Except.toBool] at this
    | ok t => exact ⟨t :: texts, by rw [List.map_cons, htexts]⟩

theorem exists_error_of_not_ok {pgs : List (Except Unit (List Char))}
    (h : ∃ pg ∈ pgs, pg.isOk = false) : ∃ pg ∈ pgs, pg = Except.error () := by
  obtain ⟨pg, hmem, hko⟩ := h
  cases pg with
  | error e => cases e; exact ⟨_, hmem, rfl⟩
  | ok t => simp [Except.isOk, Except.toBool] at hko

/-- C3 (amended): after a successful open, the handle is closed exactly when
the page loop completes normally — closed when every page extraction
succeeds, but left unclosed, with the exception propagating out of
`_scan_pdf`, when a per-page extraction raises (there is no try/finally
around the loop). -/
theorem scan_close_behavior (doc : PDoc) (matcher : List Char → List (Nat × Nat))
    (window : Nat) (path : List Char) :
    ((∀ pg ∈ doc.pages, pg.isOk = true) →
      (scan_pdf (some doc) matcher window path).closed = true ∧
      (scan_pdf (some doc) matcher window path).result ≠ none) ∧
    ((∃ pg ∈ doc.pages, pg.isOk = false) →
      (scan_pdf (some doc) matcher window path).closed = false ∧
      (scan_pdf (some doc) matcher window path).result = none) := by
  constructor
  · intro h
    obtain ⟨texts, htexts⟩ := exists_map_ok h
    simp [scan_pdf, htexts, scan_pages_map_ok]
  · intro h
    have herr := scan_pages_error path (pdf_title doc (basename path))
      doc.pages.length window matcher doc.pages 0 (exists_error_of_not_ok h)
    simp [scan_pdf, herr]

/-- Witness for C3's amended theorem on a concrete one-page document. -/
theorem scan_close_behavior_witness :
    (scan_pdf (some egDoc) egMatcher 0 []).closed = true ∧
    (scan_pdf (some egDoc) egMatcher 0 []).result ≠ none :=
  (scan_close_behavior egDoc egMatcher 0 []).1 (by decide)

/-- Counterexample for C3 as stated: a document that opens successfully but
whose only page raises during text extraction.  `doc.close()` (gpdf.py line
139) is skipped because the exception propagates — the handle is opened but
never closed. -/
theorem scan_close_cex :
    (scan_pdf (some ⟨none, [Except.error ()]⟩) (fun _ => []) 0 []).opened = true ∧
    (scan_pdf (some ⟨none, [Except.error ()]⟩) (fun _ => []) 0 []).closed = false :=
  ⟨rfl, rfl⟩

/-- C5: when opening the document fails, `_scan_pdf` emits the non-fatal
diagnostic, returns empty match list and empty matched-page list, and returns
normally (no exception propagates, so the batch loop in `main` continues with
the next file). -/
theorem scan_open_failure_spec (matcher : List Char → List (Nat × Nat))
    (window : Nat) (path : List Char) :
    (scan_pdf none matcher window path).result = some ([], []) ∧
    (scan_pdf none matcher window path).warned = true ∧
    (scan_pdf none matcher window path).opened = false :=
  ⟨rfl, rfl, rfl⟩

theorem mem_scan_matched_pages (matcher : List Char → List (Nat × Nat)) :
    ∀ (texts : List (List Char)) (i j : Nat),
      (j ∈ (List.enumFrom i texts).filterMap (fun it =>
          if it.2 ≠ [] ∧ matcher it.2 ≠ [] then some it.1 else none)) ↔
      (i ≤ j ∧ ∃ t, texts[j - i]? = some t ∧ t ≠ [] ∧ matcher t ≠ [])
  | [], i, j => by simp
  | t :: ts, i, j => by
    rw [List.enumFrom_cons, List.filterMap_cons]
    by_cases hc : t ≠ [] ∧ matcher t ≠ []
    · simp only [if_pos hc, List.mem_cons]
      constructor
      · rintro (rfl | hrest)
        · exact ⟨le_refl j, t, by simp, hc.1, hc.2⟩
        · obtain ⟨hij, t', ht', h1, h2⟩ :=
            (mem_scan_matched_pages matcher ts (i + 1) j).mp hrest
          refine ⟨by omega, t', ?_, h1, h2⟩
          have hd : j - i = (j - (i + 1)) + 1 := by omega
          rw [hd, List.getElem?_cons_succ]
          exact ht'
      · rintro ⟨hij, t', ht', h1, h2⟩
        by_cases hji : j = i
        · exact Or.inl hji
        · refine Or.inr ((mem_scan_matched_pages matcher ts (i + 1) j).mpr
            ⟨by omega, t', ?_, h1, h2⟩)
          have hd : j - i = (j - (i + 1)) + 1 := by omega
          rw [hd, List.getElem?_cons_succ] at ht'
          exact ht'
    · simp only [if_neg hc]
      rw [mem_scan_matched_pages matcher ts (i + 1) j]
      constructor
      · rintro ⟨hij, t', ht', h1, h2⟩
        refine ⟨by omega, t', ?_, h1, h2⟩
        have hd : j - i = (j - (i + 1)) + 1 := by omega
        rw [hd, List.getElem?_cons_succ]
        exact ht'
      · rintro ⟨hij, t', ht', h1, h2⟩
        by_cases hji : j = i
        · rw [hji] at ht' ⊢
          rw [Nat.sub_self, List.getElem?_cons_zero] at ht'
          obtain rfl : t = t' := Option.some.inj ht'
          exact absurd ⟨h1, h2⟩ hc
        · refine ⟨by omega, t', ?_, h1, h2⟩
          have hd : j - i = (j - (i + 1)) + 1 := by omega
          rw [hd, List.getElem?_cons_succ] at ht'
          exact ht'

theorem scan_matched_pages_pairwise (matcher : List Char → List (Nat × Nat)) :
    ∀ (texts : List (List Char)) (i : Nat),
      ((List.enumFrom i texts).filterMap (fun it =>
          if it.2 ≠ [] ∧ matcher it.2 ≠ [] then some it.1 else none)).Pairwise (· < ·)
  | [], _ => by simp
  | t :: ts, i => by
    rw [List.enumFrom_cons, List.filterMap_cons]
    by_cases hc : t ≠ [] ∧ matcher t ≠ []
    · simp only [if_pos hc, List.pairwise_cons]
      refine ⟨fun j hj => ?_, scan_matched_pages_pairwise matcher ts (i + 1)⟩
      have := (mem_scan_matched_pages matcher ts (i + 1) j).mp hj
      omega
    · simp only [if_neg hc]
      exact scan_matched_pages_pairwise matcher ts (i + 1)

/-- C6 (amended): for a document all of whose pages extract successfully, the
scan returns the match records in page order with, inside a page, one record
per matcher span in the matcher's (left-to-right) order; and the matched-page
list is strictly increasing — hence deduplicated and ascending — containing
an index exactly when that page's text is nonempty and the pattern matches it
at least once.  (As literally stated the claim fails on a page with empty
extracted text and a nullable pattern: the code skips the page before
matching; see the counterexample.) -/
theorem scan_result_spec (texts : List (List Char)) (mt : Option (List Char))
    (matcher : List Char → List (Nat × Nat)) (window : Nat) (path : List Char) :
    ∃ ms ps,
      (scan_pdf (some ⟨mt, texts.map Except.ok⟩) matcher window path).result =
        some (ms, ps) ∧
      ms = (List.enumFrom 0 texts).flatMap (fun it =>
          if it.2 = [] then []
          else page_records path (pdf_title ⟨mt, texts.map Except.ok⟩ (basename path))
            texts.length window matcher it.1 it.2) ∧
      ps.Pairwise (· < ·) ∧
      (∀ j, j ∈ ps ↔ ∃ t, texts[j]? = some t ∧ t ≠ [] ∧ matcher t ≠ []) := by
  refine ⟨_, _, ?_, rfl, scan_matched_pages_pairwise matcher texts 0, fun j => ?_⟩
  · simp only [scan_pdf, List.length_map, scan_pages_map_ok]
  · rw [mem_scan_matched_pages matcher texts 0 j]
    simp

/-- Counterexample for C6 as stated: one page whose extracted text is empty,
with a pattern that matches the empty string (as `finditer` of a nullable
regex does).  The pattern matches on that page, yet the page index 0 is not
in the matched-page set: the code skips empty-text pages before matching. -/
theorem scan_result_cex :
    (scan_pdf (some ⟨none, [Except.ok []]⟩)
        (fun _ => [((0 : Nat), (0 : Nat))]) 0 []).result = some ([], []) ∧
    (fun (_ : List Char) => [((0 : Nat), (0 : Nat))]) [] ≠ [] :=
  ⟨rfl, by simp⟩

theorem scan_pages_percent (path title : List Char) (pc w : Nat)
    (matcher : List Char → List (Nat × Nat)) :
    ∀ (pgs : List (Except Unit (List Char))) (i : Nat) (ms : List MatchRecord)
      (ps : List Nat),
      scan_pages path title pc w matcher i pgs = Except.ok (ms, ps) →
      ∀ rec ∈ ms, rec.percent = percent_of rec.page_number rec.page_count
  | [], i, ms, ps, h => by
    simp only [scan_pages, Except.ok.injEq, Prod.mk.injEq] at h
    rw [← h.1]
    intro rec hrec
    simp at hrec
  | pg :: rest, i, ms, ps, h => by
    cases pg with
    | error e => simp [scan_pages] at h
    | ok text =>
      simp only [scan_pages] at h
      cases hrec : scan_pages path title pc w matcher (i + 1) rest with
      | error e => rw [hrec] at h; simp at h
      | ok pr =>
        obtain ⟨ms', ps'⟩ := pr
        rw [hrec] at h
        simp only [Except.ok.injEq, Prod.mk.injEq] at h
        intro rec hmem
        rw [← h.1] at hmem
        rcases List.mem_append.mp hmem with hl | hr
        · by_cases ht : text = []
          · simp [ht] at hl
          · simp only [if_neg ht, page_records, List.mem_map] at hl
            obtain ⟨m, hm, hback⟩ := hl
            rw [← hback]
        · exact scan_pages_percent path title pc w matcher rest (i + 1) ms' ps'
            hrec rec hr

/-- C7: every record a scan produces satisfies the code's percent formula
`(pageNumber / pageCount) * 100` for `pageCount > 0` and `0` otherwise; for a
fixed page count the formula is monotonically non-decreasing in the page
number; and on the last page it is exactly 100. -/
theorem percent_spec :
    (∀ (doc : PDoc) (matcher : List Char → List (Nat × Nat)) (window : Nat)
        (path : List Char) (ms : List MatchRecord) (ps : List Nat)
        (rec : MatchRecord),
      (scan_pdf (some doc) matcher window path).result = some (ms, ps) → rec ∈ ms →
      rec.percent = percent_of rec.page_number rec.page_count) ∧
    (∀ n k k' : Nat, k ≤ k' → percent_of k n ≤ percent_of k' n) ∧
    (∀ n : Nat, n ≠ 0 → percent_of n n = 100) := by
  refine ⟨?_, ?_, ?_⟩
  · intro doc matcher window path ms ps rec hres hmem
    simp only [scan_pdf] at hres
    cases hscan : scan_pages path (pdf_title doc (basename path)) doc.pages.length
        window matcher 0 doc.pages with
    | error e => rw [hscan] at hres; simp at hres
    | ok pr =>
      obtain ⟨ms', ps'⟩ := pr
      rw [hscan] at hres
      simp only [Option.some.injEq, Prod.mk.injEq] at hres
      rw [← hres.1] at hmem
      exact scan_pages_percent path (pdf_title doc (basename path)) doc.pages.length
        window matcher doc.pages 0 ms' ps' hscan rec hmem
  · intro n k k' hk
    unfold percent_of
    by_cases hn : n ≠ 0
    · rw [if_pos hn, if_pos hn]
      have h1 : (k : ℚ) ≤ (k' : ℚ) := Nat.cast_le.mpr hk
      have h2 : (0 : ℚ) < (n : ℚ) := by
        exact_mod_cast Nat.pos_of_ne_zero hn
      gcongr
    · rw [if_neg hn, if_neg hn]
  · intro n hn
    unfold percent_of
    rw [if_pos hn, div_self (by exact_mod_cast hn)]
    norm_num

/-- Witness for C7 on a concrete scan (one page, one match) and concrete page
numbers. -/
theorem percent_spec_witness :
    egRec.percent = percent_of egRec.page_number egRec.page_count ∧
    percent_of 1 2 ≤ percent_of 2 2 ∧
    percent_of 2 2 = 100 :=
  ⟨percent_spec.1 egDoc egMatcher 0 [] [egRec] [0] egRec rfl (by simp),
   percent_spec.2.1 2 1 2 (by norm_num),
   percent_spec.2.2 2 (by norm_num)⟩

/-- Counterexample for C10 as stated: with `abspath = id`, source `"d/x"`
equals its computed destination (so the claim promises it is never opened for
writing), yet the call still emits a write action to that very path, caused by
the second source `"e/x"` sharing its base name. -/
theorem copy_pdfs_cex :
    ['d', '/', 'x'] = pjoin ['d'] (safe_filename ['d', '/', 'x']) ∧
    (pjoin ['d'] (safe_filename ['d', '/', 'x']), ([] : List Nat)) ∈
      copy_pdfs (fun p => p) (fun _ => []) ['d'] [['d', '/', 'x'], ['e', '/', 'x']] := by
  constructor
  · decide
  · decide

theorem replaceAll_nil (pat repl : List Char) : replaceAll pat repl [] = [] := by
  rw [replaceAll]

theorem replaceAll_cons (pat repl : List Char) (c : Char) (cs : List Char) :
    replaceAll pat repl (c :: cs) =
      if pat ≠ [] ∧ pat.isPrefixOf (c :: cs) = true then
        repl ++ replaceAll pat repl ((c :: cs).drop pat.length)
      else
        c :: replaceAll pat repl cs := by
  rw [replaceAll]
  by_cases hc : pat ≠ [] ∧ pat.isPrefixOf (c :: cs) = true
  · rw [dif_pos hc, if_pos hc]
  · rw [dif_neg hc, if_neg hc]

theorem isPrefixOf_cons_cons (a b : Char) (l w : List Char) :
    (a :: l).isPrefixOf (b :: w) = (a == b && l.isPrefixOf w) := rfl

theorem isPrefixOf_append_self : ∀ (l w : List Char), l.isPrefixOf (l ++ w) = true
  | [], _ => by simp [List.isPrefixOf]
  | a :: l, w => by
    rw [List.cons_append, isPrefixOf_cons_cons]
    simp [isPrefixOf_append_self l w]

theorem isPrefixOf_cons_ne (pat : List Char) (d : Char) (pat' : List Char)
    (hpat : pat = d :: pat') (c : Char) (cs : List Char) (hcd : c ≠ d) :
    pat.isPrefixOf (c :: cs) = false := by
  rw [hpat, isPrefixOf_cons_cons]
  have hdc : (d == c) = false := beq_eq_false_iff_ne.mpr (Ne.symm hcd)
  rw [hdc, Bool.false_and]

theorem mem_of_isPrefixOf : ∀ {l w : List Char}, l.isPrefixOf w = true → ∀ a ∈ l, a ∈ w
  | [], _, _, a, ha => by simp at ha
  | x :: l, [], h, a, ha => by simp [List.isPrefixOf] at h
  | x :: l, y :: w, h, a, ha => by
    rw [isPrefixOf_cons_cons, Bool.and_eq_true, beq_iff_eq] at h
    rcases List.mem_cons.mp ha with rfl | hal
    · rw [h.1]; exact List.mem_cons_self _ _
    · exact List.mem_cons_of_mem _ (mem_of_isPrefixOf h.2 a hal)

theorem replaceAll_cons_np (pat repl : List Char) (c : Char) (cs : List Char)
    (hnp : pat.isPrefixOf (c :: cs) = false) :
    replaceAll pat repl (c :: cs) = c :: replaceAll pat repl cs := by
  rw [replaceAll_cons, if_neg]
  rintro ⟨-, hpre⟩
  rw [hpre] at hnp
  exact Bool.noConfusion hnp

theorem replaceAll_cons_ne (pat repl : List Char) (d : Char) (pat' : List Char)
    (hpat : pat = d :: pat') (c : Char) (cs : List Char) (hcd : c ≠ d) :
    replaceAll pat repl (c :: cs) = c :: replaceAll pat repl cs :=
  replaceAll_cons_np pat repl c cs (isPrefixOf_cons_ne pat d pat' hpat c cs hcd)

theorem replaceAll_here (pat repl : List Char) (hne : pat ≠ []) (w : List Char) :
    replaceAll pat repl (pat ++ w) = repl ++ replaceAll pat repl w := by
  cases pat with
  | nil => exact absurd rfl hne
  | cons d ps =>
    rw [List.cons_append, replaceAll_cons,
      if_pos ⟨hne, by rw [← List.cons_append]; exact isPrefixOf_append_self _ w⟩]
    congr 1
    rw [← List.cons_append, List.drop_left]

theorem replaceAll_skip (pat repl : List Char) (d : Char) (pat' : List Char)
    (hpat : pat = d :: pat') :
    ∀ (u w : List Char), d ∉ u →
      replaceAll pat repl (u ++ w) = u ++ replaceAll pat repl w
  | [], w, _ => by simp
  | c :: u, w, hd => by
    rw [List.cons_append,
      replaceAll_cons_ne pat repl d pat' hpat c _
        (fun h => hd (by rw [← h]; exact List.mem_cons_self c u)),
      replaceAll_skip pat repl d pat' hpat u w (fun h => hd (List.mem_cons_of_mem _ h)),
      List.cons_append]

theorem replaceAll_nf (pat repl : List Char) (d : Char) (pat' : List Char)
    (hpat : pat = d :: pat') (w : List Char) (hw : d ∉ w) :
    replaceAll pat repl w = w := by
  have h := replaceAll_skip pat repl d pat' hpat w [] hw
  rw [List.append_nil, replaceAll_nil, List.append_nil] at h
  exact h

theorem replaceAll_A_on_B (repl s : List Char) (hs : '\x1b' ∉ s) :
    replaceAll ansiStart repl (ansiEnd ++ s) = ansiEnd ++ s := by
  show replaceAll ansiStart repl ('\x1b' :: '[' :: '0' :: 'm' :: s) =
    '\x1b' :: '[' :: '0' :: 'm' :: s
  rw [replaceAll_cons_np _ _ _ _ (by rfl),
    replaceAll_cons_ne ansiStart repl '\x1b' ['[', '3', '1', 'm'] rfl '[' _ (by decide),
    replaceAll_cons_ne ansiStart repl '\x1b' ['[', '3', '1', 'm'] rfl '0' _ (by decide),
    replaceAll_cons_ne ansiStart repl '\x1b' ['[', '3', '1', 'm'] rfl 'm' _ (by decide),
    replaceAll_nf ansiStart repl '\x1b' ['[', '3', '1', 'm'] rfl s hs]

theorem replaceAll_Ss_on_Se (repl s : List Char) (hs : '\x00' ∉ s) :
    replaceAll sentinelStart repl (sentinelEnd ++ s) = sentinelEnd ++ s := by
  have hlast : sentinelStart.isPrefixOf ('\x00' :: s) = false := by
    by_contra hcon
    rw [Bool.not_eq_false] at hcon
    have h2 : (['G', 'P', 'D', 'F', '_', 'S', 'T', 'A', 'R', 'T', '\x00'] :
        List Char).isPrefixOf s = true := by
      rw [show sentinelStart =
          '\x00' :: ['G', 'P', 'D', 'F', '_', 'S', 'T', 'A', 'R', 'T', '\x00'] from rfl,
        isPrefixOf_cons_cons, Bool.and_eq_true] at hcon
      exact hcon.2
    exact hs (mem_of_isPrefixOf h2 '\x00' (by decide))
  show replaceAll sentinelStart repl
      ('\x00' :: 'G' :: 'P' :: 'D' :: 'F' :: '_' :: 'E' :: 'N' :: 'D' :: '\x00' :: s) =
    '\x00' :: 'G' :: 'P' :: 'D' :: 'F' :: '_' :: 'E' :: 'N' :: 'D' :: '\x00' :: s
  rw [replaceAll_cons_np _ _ _ _ (by rfl),
    replaceAll_cons_ne sentinelStart repl '\x00' _ rfl 'G' _ (by decide),
    replaceAll_cons_ne sentinelStart repl '\x00' _ rfl 'P' _ (by decide),
    replaceAll_cons_ne sentinelStart repl '\x00' _ rfl 'D' _ (by decide),
    replaceAll_cons_ne sentinelStart repl '\x00' _ rfl 'F' _ (by decide),
    replaceAll_cons_ne sentinelStart repl '\x00' _ rfl '_' _ (by decide),
    replaceAll_cons_ne sentinelStart repl '\x00' _ rfl 'E' _ (by decide),
    replaceAll_cons_ne sentinelStart repl '\x00' _ rfl 'N' _ (by decide),
    replaceAll_cons_ne sentinelStart repl '\x00' _ rfl 'D' _ (by decide),
    replaceAll_cons_np _ _ _ _ hlast,
    replaceAll_nf sentinelStart repl '\x00' _ rfl s hs]

theorem collapseWS_append_nospace :
    ∀ (u v : List Char), (∀ c ∈ u, pySpace c = false) →
      collapseWS (u ++ v) = u ++ collapseWS v
  | [], _, _ => rfl
  | a :: u', v, h => by
    have ha : pySpace a = false := h a (List.mem_cons_self _ _)
    have ih := collapseWS_append_nospace u' v (fun c hc => h c (List.mem_cons_of_mem _ hc))
    show collapseWS (a :: (u' ++ v)) = a :: (u' ++ collapseWS v)
    cases hu : u' ++ v with
    | nil =>
      obtain ⟨hu', hv⟩ := List.append_eq_nil.mp hu
      subst hu'
      subst hv
      simp [collapseWS, ha]
    | cons d t =>
      have hstep : collapseWS (a :: d :: t) = a :: collapseWS (d :: t) := by
        simp [collapseWS, ha]
      calc collapseWS (a :: d :: t) = a :: collapseWS (d :: t) := hstep
        _ = a :: collapseWS (u' ++ v) := by rw [hu]
        _ = a :: (u' ++ collapseWS v) := by rw [ih]

theorem collapseWS_append_head (c : Char) (hc : pySpace c = false) :
    ∀ (u v : List Char), collapseWS (u ++ c :: v) = collapseWS u ++ collapseWS (c :: v)
  | [], v => by simp [collapseWS]
  | [a], v => by
    show collapseWS (a :: c :: v) = collapseWS [a] ++ collapseWS (c :: v)
    by_cases ha : pySpace a
    · have h1 : collapseWS (a :: c :: v) = ' ' :: collapseWS (c :: v) := by
        simp [collapseWS, ha, hc]
      have h2 : collapseWS [a] = [' '] := by simp [collapseWS, ha]
      rw [h1, h2, List.singleton_append]
    · have ha' : pySpace a = false := by simpa using ha
      have h1 : collapseWS (a :: c :: v) = a :: collapseWS (c :: v) := by
        simp [collapseWS, ha']
      have h2 : collapseWS [a] = [a] := by simp [collapseWS, ha']
      rw [h1, h2, List.singleton_append]
  | a :: b :: u', v => by
    have ih := collapseWS_append_head c hc (b :: u') v
    show collapseWS (a :: b :: (u' ++ c :: v)) =
      collapseWS (a :: b :: u') ++ collapseWS (c :: v)
    by_cases hab : (pySpace a && pySpace b) = true
    · have h1 : collapseWS (a :: b :: (u' ++ c :: v)) =
          collapseWS (b :: (u' ++ c :: v)) := by
        simp [collapseWS, hab]
      have h2 : collapseWS (a :: b :: u') = collapseWS (b :: u') := by
        simp [collapseWS, hab]
      rw [h1, h2]
      exact ih
    · have hab' : (pySpace a && pySpace b) = false := by simpa using hab
      have h1 : collapseWS (a :: b :: (u' ++ c :: v)) =
          (if pySpace a then ' ' else a) :: collapseWS (b :: (u' ++ c :: v)) := by
        simp [collapseWS, hab']
      have h2 : collapseWS (a :: b :: u') =
          (if pySpace a then ' ' else a) :: collapseWS (b :: u') := by
        simp [collapseWS, hab']
      rw [h1, h2, List.cons_append]
      exact congrArg (fun x => (if pySpace a then ' ' else a) :: x) ih

theorem mem_collapseWS : ∀ (u : List Char) (a : Char), a ∈ collapseWS u → a ∈ u ∨ a = ' '
  | [], a, h => by simp [collapseWS] at h
  | [x], a, h => by
    by_cases hx : pySpace x
    · simp [collapseWS, hx] at h
      exact Or.inr h
    · simp [collapseWS, hx] at h
      exact Or.inl (by simp [h])
  | x :: y :: u, a, h => by
    by_cases hxy : (pySpace x && pySpace y) = true
    · rw [show collapseWS (x :: y :: u) = collapseWS (y :: u) from by
        simp [collapseWS, hxy]] at h
      rcases mem_collapseWS (y :: u) a h with hm | hsp
      · exact Or.inl (List.mem_cons_of_mem _ hm)
      · exact Or.inr hsp
    · have hxy' : (pySpace x && pySpace y) = false := by simpa using hxy
      rw [show collapseWS (x :: y :: u) =
          (if pySpace x then ' ' else x) :: collapseWS (y :: u) from by
        simp [collapseWS, hxy']] at h
      rcases List.mem_cons.mp h with ha | hm
      · by_cases hx : pySpace x
        · right; rw [ha, if_pos hx]
        · left; rw [ha, if_neg hx]; exact List.mem_cons_self _ _
      · rcases mem_collapseWS (y :: u) a hm with h1 | h2
        · exact Or.inl (List.mem_cons_of_mem _ h1)
        · exact Or.inr h2

theorem dropWhile_append_cons (u : List Char) (c : Char) (v : List Char)
    (hc : pySpace c = false) :
    (u ++ c :: v).dropWhile pySpace = u.dropWhile pySpace ++ c :: v := by
  rw [List.dropWhile_append]
  by_cases h : (u.dropWhile pySpace).isEmpty
  · rw [if_pos h]
    rw [List.isEmpty_iff] at h
    rw [h, List.nil_append, List.dropWhile_cons, if_neg (by simp [hc])]
  · rw [if_neg h]

theorem rdropWhile_append_cons (u : List Char) (c : Char) (v : List Char)
    (hc : pySpace c = false) :
    (u ++ c :: v).rdropWhile pySpace = u ++ c :: v.rdropWhile pySpace := by
  rw [List.rdropWhile, List.rdropWhile]
  rw [show (u ++ c :: v).reverse = v.reverse ++ c :: u.reverse from by
    simp [List.reverse_append]]
  rw [dropWhile_append_cons _ c _ hc]
  simp

theorem afterFirst_cons_np (pat : List Char) (c : Char) (cs : List Char)
    (hnp : pat.isPrefixOf (c :: cs) = false) :
    afterFirst pat (c :: cs) = afterFirst pat cs := by
  rw [afterFirst, if_neg (by simp [hnp])]

theorem afterFirst_append_self (pat w : List Char) :
    afterFirst pat (pat ++ w) = w := by
  cases pat with
  | nil =>
    cases w with
    | nil => rfl
    | cons c cs =>
      rw [List.nil_append, afterFirst, if_pos (by simp [List.isPrefixOf])]
      simp
  | cons d ps =>
    rw [List.cons_append, afterFirst,
      if_pos (by rw [← List.cons_append]; simp [isPrefixOf_append_self])]
    rw [← List.cons_append, List.drop_left]

theorem afterFirst_skip (pat : List Char) (d : Char) (pat' : List Char)
    (hpat : pat = d :: pat') :
    ∀ (u w : List Char), d ∉ u → afterFirst pat (u ++ w) = afterFirst pat w
  | [], _, _ => by simp
  | c :: u, w, hd => by
    rw [List.cons_append,
      afterFirst_cons_np pat c _ (isPrefixOf_cons_ne pat d pat' hpat c _
        (fun h => hd (by rw [← h]; exact List.mem_cons_self c u))),
      afterFirst_skip pat d pat' hpat u w (fun h => hd (List.mem_cons_of_mem _ h))]

theorem beforeFirst_cons_np (pat : List Char) (c : Char) (cs : List Char)
    (hnp : pat.isPrefixOf (c :: cs) = false) :
    beforeFirst pat (c :: cs) = c :: beforeFirst pat cs := by
  rw [beforeFirst, if_neg (by simp [hnp])]

theorem beforeFirst_append_self (pat w : List Char) (hne : pat ≠ []) :
    beforeFirst pat (pat ++ w) = [] := by
  cases pat with
  | nil => exact absurd rfl hne
  | cons d ps =>
    rw [List.cons_append, beforeFirst,
      if_pos (by rw [← List.cons_append]; simp [isPrefixOf_append_self])]

theorem beforeFirst_skip (pat : List Char) (d : Char) (pat' : List Char)
    (hpat : pat = d :: pat') :
    ∀ (u w : List Char), d ∉ u → beforeFirst pat (u ++ w) = u ++ beforeFirst pat w
  | [], _, _ => by simp
  | c :: u, w, hd => by
    rw [List.cons_append,
      beforeFirst_cons_np pat c _ (isPrefixOf_cons_ne pat d pat' hpat c _
        (fun h => hd (by rw [← h]; exact List.mem_cons_self c u))),
      beforeFirst_skip pat d pat' hpat u w (fun h => hd (List.mem_cons_of_mem _ h)),
      List.cons_append]

theorem strip_ansi_nil : strip_ansi [] = [] := by rw [strip_ansi]

theorem strip_ansi_cons_ne (c : Char) (cs : List Char) (hc : c ≠ '\x1b') :
    strip_ansi (c :: cs) = c :: strip_ansi cs := by
  rw [strip_ansi, dif_neg hc]

theorem strip_ansi_no_esc : ∀ (l : List Char), '\x1b' ∉ l → strip_ansi l = l
  | [], _ => strip_ansi_nil
  | c :: cs, h => by
    rw [strip_ansi_cons_ne c cs (fun hc => h (by rw [← hc]; exact List.mem_cons_self _ _)),
      strip_ansi_no_esc cs (fun hx => h (List.mem_cons_of_mem _ hx))]

theorem normalize_marked (p m s : List Char)
    (hpe : '\x1b' ∉ p) (hpn : '\x00' ∉ p)
    (hme : '\x1b' ∉ m) (hmn : '\x00' ∉ m)
    (hse : '\x1b' ∉ s) (hsn : '\x00' ∉ s) :
    normalize_with_ansi (p ++ ansiStart ++ (m ++ (ansiEnd ++ s))) =
      (collapseWS p).dropWhile pySpace ++
        (ansiStart ++ (collapseWS m ++ (ansiEnd ++ (collapseWS s).rdropWhile pySpace))) := by
  rw [List.append_assoc]
  have ht1 : replaceAll ansiStart sentinelStart
      (p ++ (ansiStart ++ (m ++ (ansiEnd ++ s)))) =
      p ++ (sentinelStart ++ (m ++ (ansiEnd ++ s))) := by
    rw [replaceAll_skip ansiStart sentinelStart '\x1b' _ rfl p _ hpe,
      replaceAll_here ansiStart sentinelStart (by decide) _,
      replaceAll_skip ansiStart sentinelStart '\x1b' _ rfl m _ hme,
      replaceAll_A_on_B sentinelStart s hse]
  have ht2 : replaceAll ansiEnd sentinelEnd
      (p ++ (sentinelStart ++ (m ++ (ansiEnd ++ s)))) =
      p ++ (sentinelStart ++ (m ++ (sentinelEnd ++ s))) := by
    rw [replaceAll_skip ansiEnd sentinelEnd '\x1b' _ rfl p _ hpe,
      replaceAll_skip ansiEnd sentinelEnd '\x1b' _ rfl sentinelStart _ (by decide),
      replaceAll_skip ansiEnd sentinelEnd '\x1b' _ rfl m _ hme,
      replaceAll_here ansiEnd sentinelEnd (by decide) s,
      replaceAll_nf ansiEnd sentinelEnd '\x1b' _ rfl s hse]
  have hcol : collapseWS (p ++ (sentinelStart ++ (m ++ (sentinelEnd ++ s)))) =
      collapseWS p ++
        (sentinelStart ++ (collapseWS m ++ (sentinelEnd ++ collapseWS s))) := by
    rw [show sentinelStart ++ (m ++ (sentinelEnd ++ s)) =
      '\x00' :: (['G', 'P', 'D', 'F', '_', 'S', 'T', 'A', 'R', 'T', '\x00'] ++
        (m ++ (sentinelEnd ++ s))) from rfl]
    rw [collapseWS_append_head '\x00' (by decide) p _]
    rw [show ('\x00' :: (['G', 'P', 'D', 'F', '_', 'S', 'T', 'A', 'R', 'T', '\x00'] ++
        (m ++ (sentinelEnd ++ s)))) = sentinelStart ++ (m ++ (sentinelEnd ++ s)) from rfl]
    rw [collapseWS_append_nospace sentinelStart _ (by decide)]
    rw [show sentinelEnd ++ s =
      '\x00' :: (['G', 'P', 'D', 'F', '_', 'E', 'N', 'D', '\x00'] ++ s) from rfl]
    rw [collapseWS_append_head '\x00' (by decide) m _]
    rw [show ('\x00' :: (['G', 'P', 'D', 'F', '_', 'E', 'N', 'D', '\x00'] ++ s)) =
      sentinelEnd ++ s from rfl]
    rw [collapseWS_append_nospace sentinelEnd s (by decide)]
  have hstrip : pyStrip (collapseWS p ++
      (sentinelStart ++ (collapseWS m ++ (sentinelEnd ++ collapseWS s)))) =
      (collapseWS p).dropWhile pySpace ++
        (sentinelStart ++ (collapseWS m ++
          (sentinelEnd ++ (collapseWS s).rdropWhile pySpace))) := by
    simp only [pyStrip]
    rw [show sentinelStart ++ (collapseWS m ++ (sentinelEnd ++ collapseWS s)) =
      '\x00' :: (['G', 'P', 'D', 'F', '_', 'S', 'T', 'A', 'R', 'T', '\x00'] ++
        (collapseWS m ++ (sentinelEnd ++ collapseWS s))) from rfl]
    rw [dropWhile_append_cons _ '\x00' _ (by decide)]
    rw [show (collapseWS p).dropWhile pySpace ++
        '\x00' :: (['G', 'P', 'D', 'F', '_', 'S', 'T', 'A', 'R', 'T', '\x00'] ++
          (collapseWS m ++ (sentinelEnd ++ collapseWS s))) =
      ((collapseWS p).dropWhile pySpace ++
        ('\x00' :: (['G', 'P', 'D', 'F', '_', 'S', 'T', 'A', 'R', 'T', '\x00'] ++
          (collapseWS m ++ ['\x00', 'G', 'P', 'D', 'F', '_', 'E', 'N', 'D'])))) ++
        ('\x00' :: collapseWS s) from by simp [sentinelEnd, List.append_assoc]]
    rw [rdropWhile_append_cons _ '\x00' _ (by decide)]
    simp [sentinelStart, sentinelEnd, List.append_assoc]
  simp only [normalize_with_ansi, normalize_context]
  rw [ht1, ht2, hcol, hstrip]
  have hCpn : '\x00' ∉ collapseWS p := fun h => by
    rcases mem_collapseWS p _ h with h1 | h2
    · exact hpn h1
    · exact absurd h2 (by decide)
  have hCmn : '\x00' ∉ collapseWS m := fun h => by
    rcases mem_collapseWS m _ h with h1 | h2
    · exact hmn h1
    · exact absurd h2 (by decide)
  have hCsn : '\x00' ∉ collapseWS s := fun h => by
    rcases mem_collapseWS s _ h with h1 | h2
    · exact hsn h1
    · exact absurd h2 (by decide)
  have hPn : '\x00' ∉ (collapseWS p).dropWhile pySpace :=
    fun h => hCpn ((List.dropWhile_sublist pySpace).subset h)
  have hSn : '\x00' ∉ (collapseWS s).rdropWhile pySpace :=
    fun h => hCsn ((List.rdropWhile_prefix pySpace (collapseWS s)).sublist.subset h)
  rw [replaceAll_skip sentinelStart ansiStart '\x00' _ rfl _ _ hPn,
    replaceAll_here sentinelStart ansiStart (by decide) _,
    replaceAll_skip sentinelStart ansiStart '\x00' _ rfl _ _ hCmn,
    replaceAll_Ss_on_Se ansiStart _ hSn]
  rw [replaceAll_skip sentinelEnd ansiEnd '\x00' _ rfl _ _ hPn,
    replaceAll_skip sentinelEnd ansiEnd '\x00' _ rfl ansiStart _ (by decide),
    replaceAll_skip sentinelEnd ansiEnd '\x00' _ rfl _ _ hCmn,
    replaceAll_here sentinelEnd ansiEnd (by decide) _,
    replaceAll_nf sentinelEnd ansiEnd '\x00' _ rfl _ hSn]

theorem marked_between (p m s : List Char)
    (hpe : '\x1b' ∉ p) (hpn : '\x00' ∉ p)
    (hme : '\x1b' ∉ m) (hmn : '\x00' ∉ m)
    (hse : '\x1b' ∉ s) (hsn : '\x00' ∉ s) :
    strip_ansi (betweenMarkers
      (normalize_with_ansi (p ++ ansiStart ++ (m ++ (ansiEnd ++ s))))) = collapseWS m := by
  rw [normalize_marked p m s hpe hpn hme hmn hse hsn]
  have hCpe : '\x1b' ∉ collapseWS p := fun h => by
    rcases mem_collapseWS p _ h with h1 | h2
    · exact hpe h1
    · exact absurd h2 (by decide)
  have hCme : '\x1b' ∉ collapseWS m := fun h => by
    rcases mem_collapseWS m _ h with h1 | h2
    · exact hme h1
    · exact absurd h2 (by decide)
  have hPe : '\x1b' ∉ (collapseWS p).dropWhile pySpace :=
    fun h => hCpe ((List.dropWhile_sublist pySpace).subset h)
  simp only [betweenMarkers]
  rw [afterFirst_skip ansiStart '\x1b' _ rfl _ _ hPe, afterFirst_append_self]
  rw [beforeFirst_skip ansiEnd '\x1b' _ rfl _ _ hCme,
    beforeFirst_append_self _ _ (by decide), List.append_nil]
  exact strip_ansi_no_esc _ hCme

theorem extract_context_between (t : List Char) (s e w : Nat)
    (hse : s ≤ e) (het : e ≤ t.length)
    (hesc : '\x1b' ∉ t) (hnul : '\x00' ∉ t) :
    strip_ansi (betweenMarkers (extract_context t s e w)) =
      collapseWS ((t.drop s).take (e - s)) := by
  have hX : ∀ a, a ∈ (t.drop (s - w)).take (min t.length (e + w) - (s - w)) → a ∈ t :=
    fun a ha => (List.drop_sublist _ _).subset ((List.take_sublist _ _).subset ha)
  have key := marked_between
    (((t.drop (s - w)).take (min t.length (e + w) - (s - w))).take (s - (s - w)))
    ((((t.drop (s - w)).take (min t.length (e + w) - (s - w))).drop (s - (s - w))).take
      (e - (s - w) - (s - (s - w))))
    (((t.drop (s - w)).take (min t.length (e + w) - (s - w))).drop (e - (s - w)))
    (fun h => hesc (hX _ ((List.take_sublist _ _).subset h)))
    (fun h => hnul (hX _ ((List.take_sublist _ _).subset h)))
    (fun h => hesc (hX _ ((List.drop_sublist _ _).subset ((List.take_sublist _ _).subset h))))
    (fun h => hnul (hX _ ((List.drop_sublist _ _).subset ((List.take_sublist _ _).subset h))))
    (fun h => hesc (hX _ ((List.drop_sublist _ _).subset h)))
    (fun h => hnul (hX _ ((List.drop_sublist _ _).subset h)))
  simp only [extract_context]
  rw [key]
  congr 1
  rw [List.drop_take, List.drop_drop, List.take_take]
  have hmin : e - (s - w) - (s - (s - w)) ≤
      min t.length (e + w) - (s - w) - (s - (s - w)) := by omega
  rw [min_eq_left hmin]
  have h1 : s - w + (s - (s - w)) = s := by omega
  have h2 : e - (s - w) - (s - (s - w)) = e - s := by omega
  rw [h1, h2]

/-- C4 (amended): for any page text free of the ESC and NUL control
characters the markers are built from, any match span, and any window size —
including windows clipped at either end — the text between the rendered
highlight markers, after stripping the ANSI markup, equals the matched
substring with each whitespace run collapsed to a single space.  Equality
with the raw matched substring as claimed fails whenever the match contains a
whitespace run that normalization rewrites; see the counterexample. -/
theorem extract_context_roundtrip (t : List Char) (s e w : Nat)
    (hse : s ≤ e) (het : e ≤ t.length) (hesc : '\x1b' ∉ t) (hnul : '\x00' ∉ t) :
    strip_ansi (betweenMarkers (extract_context t s e w)) =
      collapseWS ((t.drop s).take (e - s)) :=
  extract_context_between t s e w hse het hesc hnul

/-- Witness for C4's amended theorem at a concrete clipped window. -/
theorem extract_context_roundtrip_witness :
    strip_ansi (betweenMarkers (extract_context ['a', 'b'] 0 1 1)) =
      collapseWS ((['a', 'b'].drop 0).take 1) :=
  extract_context_roundtrip ['a', 'b'] 0 1 1 (by decide) (by decide) (by decide) (by decide)

/-- Counterexample for C4 as stated: for the page text `"a\tb"` matched in
full, the text between the markers after stripping markup is `"a b"` — the
tab inside the match was collapsed by `_normalize_context` — which is not the
original matched substring `"a\tb"`. -/
theorem extract_context_roundtrip_cex :
    strip_ansi (betweenMarkers (extract_context ['a', '\t', 'b'] 0 3 0)) ≠
      ['a', '\t', 'b'] := by
  rw [extract_context_between ['a', '\t', 'b'] 0 3 0
    (by decide) (by decide) (by decide) (by decide)]
  decide

theorem foldl_merge_pages (src title : List Char) :
    ∀ (idxs : List Nat) (st : MergeState),
      (idxs.foldl (fun s i => merge_page s src title i) st).pages =
        st.pages ++ idxs.map (MPage.copied src)
  | [], st => by simp
  | i :: is, st => by
    rw [List.foldl_cons, foldl_merge_pages src title is, List.map_cons]
    simp [merge_page]

theorem foldl_merge_map_fst (src title : List Char) :
    ∀ (idxs : List Nat) (st : MergeState),
      ((idxs.foldl (fun s i => merge_page s src title i) st).page_map.map Prod.fst) =
        st.page_map.map Prod.fst ++ idxs.map (fun i => (src, i + 1))
  | [], st => by simp
  | i :: is, st => by
    rw [List.foldl_cons, foldl_merge_map_fst src title is, List.map_cons]
    simp [merge_page]

theorem foldl_merge_entries_len (src title : List Char) :
    ∀ (idxs : List Nat) (st : MergeState),
      (idxs.foldl (fun s i => merge_page s src title i) st).entries.length =
        st.entries.length + idxs.length
  | [], st => by simp
  | i :: is, st => by
    rw [List.foldl_cons, foldl_merge_entries_len src title is]
    simp only [merge_page, List.length_append, List.length_cons, List.length_nil]
    omega

theorem foldl_merge_mem_map (src title : List Char) :
    ∀ (idxs : List Nat) (st : MergeState) (e : (List Char × Nat) × Nat),
      e ∈ st.page_map →
      e ∈ (idxs.foldl (fun s i => merge_page s src title i) st).page_map
  | [], _, _, h => h
  | i :: is, st, e, h => by
    rw [List.foldl_cons]
    exact foldl_merge_mem_map src title is _ e (List.mem_append_left _ h)

theorem foldl_merge_map_sound (src title : List Char) :
    ∀ (idxs : List Nat) (st : MergeState),
      (∀ e ∈ st.page_map, 1 ≤ e.1.2 ∧ 1 ≤ e.2 ∧
        st.pages[e.2 - 1]? = some (MPage.copied e.1.1 (e.1.2 - 1))) →
      ∀ e ∈ (idxs.foldl (fun s i => merge_page s src title i) st).page_map,
        1 ≤ e.1.2 ∧ 1 ≤ e.2 ∧
        (idxs.foldl (fun s i => merge_page s src title i) st).pages[e.2 - 1]? =
          some (MPage.copied e.1.1 (e.1.2 - 1))
  | [], _, h => h
  | i :: is, st, h => by
    rw [List.foldl_cons]
    apply foldl_merge_map_sound src title is
    intro e he
    have he' : e ∈ st.page_map ++ [((src, i + 1), st.pages.length + 1)] := he
    rcases List.mem_append.mp he' with hold | hnew
    · obtain ⟨h1, h2, h3⟩ := h e hold
      refine ⟨h1, h2, ?_⟩
      have hlt : e.2 - 1 < st.pages.length := by
        rcases List.getElem?_eq_some.mp h3 with ⟨hl, _⟩
        exact hl
      show (st.pages ++ [MPage.copied src i])[e.2 - 1]? =
        some (MPage.copied e.1.1 (e.1.2 - 1))
      rw [List.getElem?_append_left hlt]
      exact h3
    · rw [List.mem_singleton] at hnew
      subst hnew
      refine ⟨by show 1 ≤ i + 1; omega, by show 1 ≤ st.pages.length + 1; omega, ?_⟩
      show (st.pages ++ [MPage.copied src i])[st.pages.length + 1 - 1]? =
        some (MPage.copied src (i + 1 - 1))
      simp

theorem foldl_merge_key_present (src title : List Char) (idxs : List Nat)
    (st : MergeState) (i : Nat) (hi : i ∈ idxs) :
    ∃ v, ((src, i + 1), v) ∈
      (idxs.foldl (fun s i => merge_page s src title i) st).page_map := by
  have hfst : (src, i + 1) ∈
      ((idxs.foldl (fun s i => merge_page s src title i) st).page_map.map Prod.fst) := by
    rw [foldl_merge_map_fst]
    exact List.mem_append_right _ (List.mem_map_of_mem _ hi)
  obtain ⟨⟨k, v⟩, he, hk⟩ := List.mem_map.mp hfst
  simp only at hk
  rw [hk] at he
  exact ⟨v, he⟩

theorem merge_files_pages (openDoc : List Char → Option PDoc) :
    ∀ (files : List (List Char × List Nat)) (st : MergeState),
      (merge_files openDoc st files).pages =
        st.pages ++
          (mergedFiles openDoc files).flatMap (fun f => f.2.map (MPage.copied f.1))
  | [], st => by simp [merge_files, mergedFiles]
  | (src, idxs) :: rest, st => by
    by_cases hidxs : idxs = []
    · simp only [merge_files, if_pos hidxs]
      rw [merge_files_pages openDoc rest st]
      simp [mergedFiles, List.filter_cons, hidxs]
    · cases hopen : openDoc src with
      | none =>
        simp only [merge_files, if_neg hidxs, hopen]
        rw [merge_files_pages openDoc rest st]
        simp [mergedFiles, List.filter_cons, hidxs, hopen]
      | some doc =>
        simp only [merge_files, if_neg hidxs, hopen]
        rw [merge_files_pages openDoc rest _, foldl_merge_pages]
        simp [mergedFiles, List.filter_cons, hidxs, hopen, List.append_assoc]

theorem merge_files_map_fst (openDoc : List Char → Option PDoc) :
    ∀ (files : List (List Char × List Nat)) (st : MergeState),
      ((merge_files openDoc st files).page_map.map Prod.fst) =
        st.page_map.map Prod.fst ++
          (mergedFiles openDoc files).flatMap (fun f => f.2.map (fun i => (f.1, i + 1)))
  | [], st => by simp [merge_files, mergedFiles]
  | (src, idxs) :: rest, st => by
    by_cases hidxs : idxs = []
    · simp only [merge_files, if_pos hidxs]
      rw [merge_files_map_fst openDoc rest st]
      simp [mergedFiles, List.filter_cons, hidxs]
    · cases hopen : openDoc src with
      | none =>
        simp only [merge_files, if_neg hidxs, hopen]
        rw [merge_files_map_fst openDoc rest st]
        simp [mergedFiles, List.filter_cons, hidxs, hopen]
      | some doc =>
        simp only [merge_files, if_neg hidxs, hopen]
        rw [merge_files_map_fst openDoc rest _, foldl_merge_map_fst]
        simp [mergedFiles, List.filter_cons, hidxs, hopen, List.append_assoc]

theorem merge_files_entries_len (openDoc : List Char → Option PDoc) :
    ∀ (files : List (List Char × List Nat)) (st : MergeState),
      (merge_files openDoc st files).entries.length + st.pages.length =
        st.entries.length + (merge_files openDoc st files).pages.length
  | [], st => by simp [merge_files]
  | (src, idxs) :: rest, st => by
    by_cases hidxs : idxs = []
    · simp only [merge_files, if_pos hidxs]
      exact merge_files_entries_len openDoc rest st
    · cases hopen : openDoc src with
      | none =>
        simp only [merge_files, if_neg hidxs, hopen]
        exact merge_files_entries_len openDoc rest st
      | some doc =>
        simp only [merge_files, if_neg hidxs, hopen]
        have h1 := merge_files_entries_len openDoc rest
          (idxs.foldl (fun s i => merge_page s src (pdf_title doc (basename src)) i) st)
        have h2 := foldl_merge_pages src (pdf_title doc (basename src)) idxs st
        have h3 := foldl_merge_entries_len src (pdf_title doc (basename src)) idxs st
        have h4 : (idxs.foldl (fun s i =>
            merge_page s src (pdf_title doc (basename src)) i) st).pages.length =
            st.pages.length + idxs.length := by
          rw [h2, List.length_append, List.length_map]
        omega

theorem merge_files_mem_map (openDoc : List Char → Option PDoc) :
    ∀ (files : List (List Char × List Nat)) (st : MergeState)
      (e : (List Char × Nat) × Nat),
      e ∈ st.page_map → e ∈ (merge_files openDoc st files).page_map
  | [], _, _, h => h
  | (src, idxs) :: rest, st, e, h => by
    by_cases hidxs : idxs = []
    · simp only [merge_files, if_pos hidxs]
      exact merge_files_mem_map openDoc rest st e h
    · cases hopen : openDoc src with
      | none =>
        simp only [merge_files, if_neg hidxs, hopen]
        exact merge_files_mem_map openDoc rest st e h
      | some doc =>
        simp only [merge_files, if_neg hidxs, hopen]
        exact merge_files_mem_map openDoc rest _ e
          (foldl_merge_mem_map src (pdf_title doc (basename src)) idxs st e h)

theorem merge_files_map_sound (openDoc : List Char → Option PDoc) :
    ∀ (files : List (List Char × List Nat)) (st : MergeState),
      (∀ e ∈ st.page_map, 1 ≤ e.1.2 ∧ 1 ≤ e.2 ∧
        st.pages[e.2 - 1]? = some (MPage.copied e.1.1 (e.1.2 - 1))) →
      ∀ e ∈ (merge_files openDoc st files).page_map,
        1 ≤ e.1.2 ∧ 1 ≤ e.2 ∧
        (merge_files openDoc st files).pages[e.2 - 1]? =
          some (MPage.copied e.1.1 (e.1.2 - 1))
  | [], _, h => h
  | (src, idxs) :: rest, st, h => by
    by_cases hidxs : idxs = []
    · simp only [merge_files, if_pos hidxs]
      exact merge_files_map_sound openDoc rest st h
    · cases hopen : openDoc src with
      | none =>
        simp only [merge_files, if_neg hidxs, hopen]
        exact merge_files_map_sound openDoc rest st h
      | some doc =>
        simp only [merge_files, if_neg hidxs, hopen]
        exact merge_files_map_sound openDoc rest _
          (foldl_merge_map_sound src (pdf_title doc (basename src)) idxs st h)

theorem merge_files_key_present (openDoc : List Char → Option PDoc) :
    ∀ (files : List (List Char × List Nat)) (st : MergeState)
      (src : List Char) (idxs : List Nat) (i : Nat),
      (src, idxs) ∈ files → (openDoc src).isSome = true → i ∈ idxs →
      ∃ v, ((src, i + 1), v) ∈ (merge_files openDoc st files).page_map
  | [], _, _, _, _, hmem, _, _ => by simp at hmem
  | (s0, x0) :: rest, st, src, idxs, i, hmem, hsome, hi => by
    rcases List.mem_cons.mp hmem with hhead | htail
    · have hs0 : s0 = src := ((Prod.mk.injEq ..).mp hhead.symm).1
      have hx0 : x0 = idxs := ((Prod.mk.injEq ..).mp hhead.symm).2
      subst hs0
      subst hx0
      have hne : x0 ≠ [] := by
        intro hnil
        rw [hnil] at hi
        simp at hi
      rw [Option.isSome_iff_exists] at hsome
      obtain ⟨doc, hdoc⟩ := hsome
      simp only [merge_files, if_neg hne, hdoc]
      obtain ⟨v, hv⟩ :=
        foldl_merge_key_present s0 (pdf_title doc (basename s0)) x0 st i hi
      exact ⟨v, merge_files_mem_map openDoc rest _ _ hv⟩
    · by_cases hidxs : x0 = []
      · simp only [merge_files, if_pos hidxs]
        exact merge_files_key_present openDoc rest st src idxs i htail hsome hi
      · cases hopen : openDoc s0 with
        | none =>
          simp only [merge_files, if_neg hidxs, hopen]
          exact merge_files_key_present openDoc rest st src idxs i htail hsome hi
        | some doc =>
          simp only [merge_files, if_neg hidxs, hopen]
          exact merge_files_key_present openDoc rest _ src idxs i htail hsome hi

theorem flatMap_keys_nodup :
    ∀ (fs : List (List Char × List Nat)),
      (fs.map Prod.fst).Nodup → (∀ f ∈ fs, f.2.Nodup) →
      (fs.flatMap (fun f => f.2.map (fun i => (f.1, i + 1)))).Nodup
  | [], _, _ => by simp
  | f :: fs, hsrc, hidx => by
    rw [List.flatMap_cons, List.nodup_append]
    rw [List.map_cons, List.nodup_cons] at hsrc
    refine ⟨?_,
      flatMap_keys_nodup fs hsrc.2 (fun g hg => hidx g (List.mem_cons_of_mem _ hg)), ?_⟩
    · refine List.Nodup.map ?_ (hidx f (List.mem_cons_self _ _))
      intro a b hab
      simpa using hab
    · intro k hk1 hk2
      obtain ⟨a, _, hka⟩ := List.mem_map.mp hk1
      obtain ⟨g, hg, hkg⟩ := List.mem_flatMap.mp hk2
      obtain ⟨b, _, hkb⟩ := List.mem_map.mp hkg
      apply hsrc.1
      have hfg : f.1 = g.1 := by
        rw [← hka] at hkb
        exact ((Prod.mk.injEq ..).mp hkb).1.symm
      rw [hfg]
      exact List.mem_map_of_mem Prod.fst hg

theorem mergedFiles_sum (openDoc : List Char → Option PDoc) :
    ∀ (files : List (List Char × List Nat)),
      (∀ f ∈ files, (openDoc f.1).isSome = true) →
      ((mergedFiles openDoc files).map (fun f => f.2.length)).sum =
        (files.map (fun f => f.2.length)).sum
  | [], _ => rfl
  | f :: rest, h => by
    have hrest := mergedFiles_sum openDoc rest (fun g hg => h g (List.mem_cons_of_mem _ hg))
    rw [mergedFiles] at hrest ⊢
    rw [List.filter_cons]
    simp only [ne_eq, decide_not] at hrest ⊢
    by_cases hf : f.2 = []
    · simp [hf, hrest]
    · simp [hf, h f (List.mem_cons_self _ _), hrest]

theorem merge_state_pages_len (openDoc : List Char → Option PDoc)
    (files : List (List Char × List Nat))
    (hopen : ∀ f ∈ files, (openDoc f.1).isSome = true) :
    (merge_files openDoc ⟨[], [], [], []⟩ files).pages.length =
      (files.map (fun f => f.2.length)).sum := by
  rw [merge_files_pages openDoc files ⟨[], [], [], []⟩]
  show ([] ++ (mergedFiles openDoc files).flatMap
    (fun f => f.2.map (MPage.copied f.1))).length = _
  rw [List.nil_append, List.length_flatMap, ← mergedFiles_sum openDoc files hopen]
  congr 1
  apply List.map_congr_left
  intro f _
  simp

/-- C2: assuming every supplied source file opens successfully, the saved
composite has exactly (sum over files of matched-page count) + 1 pages — the
extra page being the prepended contents page — whenever that sum is at least
1; when the sum is 0 nothing is saved, and the assembler still returns
normally. -/
theorem build_merged_page_count_spec (openDoc : List Char → Option PDoc)
    (files : List (List Char × List Nat))
    (hopen : ∀ f ∈ files, (openDoc f.1).isSome = true) :
    ((files.map (fun f => f.2.length)).sum ≠ 0 →
      ∃ fp, (build_merged_pdf openDoc files).saved = some fp ∧
        fp.length = (files.map (fun f => f.2.length)).sum + 1) ∧
    ((files.map (fun f => f.2.length)).sum = 0 →
      (build_merged_pdf openDoc files).saved = none) := by
  have hlen := merge_state_pages_len openDoc files hopen
  have hent := merge_files_entries_len openDoc files ⟨[], [], [], []⟩
  simp only [List.length_nil, Nat.add_zero, Nat.zero_add] at hent
  constructor
  · intro hne
    have hpages : (merge_files openDoc ⟨[], [], [], []⟩ files).pages.length ≠ 0 := by
      rw [hlen]; exact hne
    have hentne : (merge_files openDoc ⟨[], [], [], []⟩ files).entries ≠ [] := by
      intro hnil
      rw [hnil] at hent
      simp at hent
      omega
    refine ⟨MPage.contents :: (merge_files openDoc ⟨[], [], [], []⟩ files).pages, ?_, ?_⟩
    · simp only [build_merged_pdf, if_pos hpages, if_pos hentne]
    · simp [hlen]
  · intro hz
    have hpages : ¬ (merge_files openDoc ⟨[], [], [], []⟩ files).pages.length ≠ 0 := by
      rw [hlen]; omega
    simp only [build_merged_pdf, if_neg hpages]

/-- Witness for C2: two one-page sources yield a saved composite of 2 + 1
pages. -/
theorem build_merged_page_count_spec_witness :
    ∃ fp, (build_merged_pdf egOpen [(['a'], [0]), (['b'], [0])]).saved = some fp ∧
      fp.length = ([(['a'], [0]), (['b'], [0])].map
        (fun f : List Char × List Nat => f.2.length)).sum + 1 :=
  (build_merged_page_count_spec egOpen [(['a'], [0]), (['b'], [0])]
    (by decide)).1 (by decide)

/-- C1 (amended): under successful opens and deduplicated inputs, the page
map has exactly one entry per copied page — as many entries as copied pages,
with pairwise-distinct keys `(sourcePath, 1-based source page number)` and an
entry for every copied page — but each stored value is the page's 1-based
position among the copied pages only, which equals its 0-based index in the
saved composite: the generated contents page is prepended without shifting
the map (unlike the outline), so the page's 1-based position in the saved
file is the stored value plus one. -/
theorem build_merged_page_map_spec (openDoc : List Char → Option PDoc)
    (files : List (List Char × List Nat))
    (hopen : ∀ f ∈ files, (openDoc f.1).isSome = true)
    (hsrc : (files.map Prod.fst).Nodup)
    (hidx : ∀ f ∈ files, f.2.Nodup)
    (hne : (files.map (fun f => f.2.length)).sum ≠ 0) :
    ∃ fp, (build_merged_pdf openDoc files).saved = some fp ∧
      ((build_merged_pdf openDoc files).page_map.map Prod.fst).Nodup ∧
      (build_merged_pdf openDoc files).page_map.length + 1 = fp.length ∧
      (∀ e ∈ (build_merged_pdf openDoc files).page_map,
        1 ≤ e.1.2 ∧ 1 ≤ e.2 ∧ fp[e.2]? = some (MPage.copied e.1.1 (e.1.2 - 1))) ∧
      (∀ src i, MPage.copied src i ∈ fp →
        ∃ v, ((src, i + 1), v) ∈ (build_merged_pdf openDoc files).page_map) := by
  have hlen := merge_state_pages_len openDoc files hopen
  have hent := merge_files_entries_len openDoc files ⟨[], [], [], []⟩
  simp only [List.length_nil, Nat.add_zero, Nat.zero_add] at hent
  have hpages : (merge_files openDoc ⟨[], [], [], []⟩ files).pages.length ≠ 0 := by
    rw [hlen]; exact hne
  have hentne : (merge_files openDoc ⟨[], [], [], []⟩ files).entries ≠ [] := by
    intro hnil
    rw [hnil] at hent
    simp at hent
    omega
  have hfst := merge_files_map_fst openDoc files ⟨[], [], [], []⟩
  simp only [List.map_nil, List.nil_append] at hfst
  have hres : build_merged_pdf openDoc files =
      ⟨(merge_files openDoc ⟨[], [], [], []⟩ files).page_map,
       some (MPage.contents :: (merge_files openDoc ⟨[], [], [], []⟩ files).pages),
       (merge_files openDoc ⟨[], [], [], []⟩ files).toc.map
         (fun row => (row.1, row.2.1, row.2.2 + 1))⟩ := by
    simp only [build_merged_pdf, if_pos hpages, if_pos hentne]
  refine ⟨MPage.contents :: (merge_files openDoc ⟨[], [], [], []⟩ files).pages,
    by rw [hres], ?_, ?_, ?_, ?_⟩
  · rw [hres]
    show ((merge_files openDoc ⟨[], [], [], []⟩ files).page_map.map Prod.fst).Nodup
    rw [hfst]
    refine flatMap_keys_nodup (mergedFiles openDoc files) ?_ ?_
    · exact List.Nodup.sublist
        (List.Sublist.map Prod.fst (List.filter_sublist files)) hsrc
    · intro f hf
      exact hidx f (List.mem_filter.mp hf).1
  · rw [hres]
    show (merge_files openDoc ⟨[], [], [], []⟩ files).page_map.length + 1 =
      (MPage.contents :: (merge_files openDoc ⟨[], [], [], []⟩ files).pages).length
    have h1 : (merge_files openDoc ⟨[], [], [], []⟩ files).page_map.length =
        (merge_files openDoc ⟨[], [], [], []⟩ files).pages.length := by
      have h2 := congrArg List.length hfst
      rw [List.length_map] at h2
      rw [h2, merge_files_pages openDoc files ⟨[], [], [], []⟩]
      show ((mergedFiles openDoc files).flatMap
          (fun f => f.2.map (fun i => (f.1, i + 1)))).length =
        ([] ++ (mergedFiles openDoc files).flatMap
          (fun f => f.2.map (MPage.copied f.1))).length
      rw [List.nil_append, List.length_flatMap, List.length_flatMap]
      congr 1
      apply List.map_congr_left
      intro f _
      simp
    rw [h1]
    simp
  · intro e he
    rw [hres] at he
    have hsound := merge_files_map_sound openDoc files ⟨[], [], [], []⟩
      (by intro e₀ he₀; simp at he₀) e he
    refine ⟨hsound.1, hsound.2.1, ?_⟩
    have hge := hsound.2.1
    have hidx2 : e.2 = (e.2 - 1) + 1 := by omega
    rw [hidx2, List.getElem?_cons_succ]
    exact hsound.2.2
  · intro src i hmem
    rcases List.mem_cons.mp hmem with habs | hpage
    · exact absurd habs (by simp)
    · rw [merge_files_pages openDoc files ⟨[], [], [], []⟩, List.nil_append] at hpage
      obtain ⟨f, hf, hinner⟩ := List.mem_flatMap.mp hpage
      obtain ⟨b, hb, hcop⟩ := List.mem_map.mp hinner
      have hfs := (MPage.copied.injEq ..).mp hcop
      obtain ⟨hf1, rfl⟩ := hfs
      have hkeep := List.mem_filter.mp hf
      have hco : (decide (f.2 ≠ []) && (openDoc f.1).isSome) = true := hkeep.2
      rw [Bool.and_eq_true] at hco
      obtain ⟨v, hv⟩ := merge_files_key_present openDoc files ⟨[], [], [], []⟩
        f.1 f.2 b (by rw [Prod.mk.eta]; exact hkeep.1) hco.2 hb
      rw [hf1] at hv
      exact ⟨v, by rw [hres]; exact hv⟩

/-- Witness for C1's amended theorem on a concrete one-file input. -/
theorem build_merged_page_map_spec_witness :
    ∃ fp, (build_merged_pdf egOpen [(['a'], [0])]).saved = some fp ∧
      ((build_merged_pdf egOpen [(['a'], [0])]).page_map.map Prod.fst).Nodup ∧
      (build_merged_pdf egOpen [(['a'], [0])]).page_map.length + 1 = fp.length ∧
      (∀ e ∈ (build_merged_pdf egOpen [(['a'], [0])]).page_map,
        1 ≤ e.1.2 ∧ 1 ≤ e.2 ∧ fp[e.2]? = some (MPage.copied e.1.1 (e.1.2 - 1))) ∧
      (∀ src i, MPage.copied src i ∈ fp →
        ∃ v, ((src, i + 1), v) ∈ (build_merged_pdf egOpen [(['a'], [0])]).page_map) :=
  build_merged_page_map_spec egOpen [(['a'], [0])]
    (by decide) (by decide) (by decide) (by decide)

/-- Counterexample for C1 as stated: one source, one matched page.  The page
map is `[((a, 1), 1)]`, but the saved composite is `[contents, copied a 0]`:
the copied page's 1-based position in the saved document is 2, not the stored
1 — position 1 holds the generated contents page. -/
theorem build_merged_page_map_cex :
    (build_merged_pdf egOpen [(['a'], [0])]).page_map = [((['a'], 1), 1)] ∧
    (build_merged_pdf egOpen [(['a'], [0])]).saved =
      some [MPage.contents, MPage.copied ['a'] 0] ∧
    [MPage.contents, MPage.copied ['a'] 0][1 - 1]? ≠ some (MPage.copied ['a'] 0) :=
  ⟨rfl, rfl, by decide⟩

end Gpdf
